import Mathlib

/-!
Verification of the StorageCleaner ML advisor core (`src/core/ml_advisor.py`,
with the static tables of `src/core/file_categories.py`).

Shallow embedding conventions:
  * Paths are lists of (already lowercased) path components; the source keeps
    lowercased path strings and compares them with `startswith(d + os.sep)`,
    which on component lists is exactly `List.isPrefixOf`.
  * Timestamps (`st_atime` / `st_mtime` and `time.time()`) are rationals.
  * File sizes are naturals (bytes).
  * `pathlib.Path.suffix.lower()` is carried as the `ext` field of a file
    entry rather than recomputed from the name string.
  * Python floats are modelled by rationals; the two standard deviations
    computed by `statistics.stdev` are real square roots, so the pipeline
    takes the two raw `stdev` values as explicit arguments (`sd_size_raw`,
    `sd_age_raw`) and applies the source's flooring logic to them; the
    flooring of the genuine square-root standard deviation is modelled and
    proved separately over `ℝ` (`floored_stdev`).
  * `hashlib.md5` is modelled by the exact stream of bytes fed to it
    (`hashed_bytes`): two files get equal digests iff they feed equal
    streams, which is the ideal-hash reading of the duplicate detector.
  * The filesystem is a finite tree; `os.walk(root, onerror=lambda e: None)`
    on an invalid root yields nothing (the error is swallowed), which is
    modelled by an `Option` root.
  * Per-file `stat` failures and unreadable files (where `_partial_md5`
    returns `None`) are modelled by the `statOk` / `readable` flags.
  * Display-only fields of `FileInfo` (formatted dates, recommendation and
    reasons strings) are omitted; every field inspected by a caller's logic
    (path, size, extension, category, safety, score, confidence,
    duplicate_group, is_newest_in_group) is kept.
-/

/-- Safety tiers from `file_categories.SafetyTier`. -/
inductive SafetyTier where
  | protected_
  | safe
  | review
  | unknown
deriving DecidableEq, Repr

/-- A file category entry (`file_categories.FileCategory`). -/
structure FileCategory where
  key : String
  label : String
  description : String
  default_safety : SafetyTier
deriving DecidableEq, Repr

/-- The `CATEGORIES` table of `file_categories.py`, keyed by category key. -/
def CATEGORIES : List (String × FileCategory) := [
  ("cache_temp", ⟨"cache_temp", "Cache & Temp Files",
      "Temporary and cache files that can be safely removed", SafetyTier.safe⟩),
  ("duplicate", ⟨"duplicate", "Duplicate Files",
      "Duplicate copies of files wasting space", SafetyTier.safe⟩),
  ("old_download", ⟨"old_download", "Old Downloads",
      "Old files in download directories", SafetyTier.review⟩),
  ("large_unused", ⟨"large_unused", "Large Unused Files",
      "Large files not accessed or modified in a long time", SafetyTier.review⟩),
  ("log_file", ⟨"log_file", "Log Files",
      "Log files that can usually be cleaned up", SafetyTier.safe⟩),
  ("package_cache", ⟨"package_cache", "Package Cache",
      "Cached package manager downloads", SafetyTier.safe⟩),
  ("old_media", ⟨"old_media", "Old Media Files",
      "Old video, audio, or image files", SafetyTier.review⟩),
  ("archive", ⟨"archive", "Archive Files",
      "Compressed archives (.zip, .iso, .tar, etc.)", SafetyTier.review⟩),
  ("build_artifact", ⟨"build_artifact", "Build Artifacts",
      "Compiled objects, bytecode, and build outputs", SafetyTier.safe⟩)]

/-- The `EXTENSION_CATEGORIES` mapping of `file_categories.py`. -/
def EXTENSION_CATEGORIES : List (String × String) := [
  (".tmp", "cache_temp"), (".temp", "cache_temp"), (".cache", "cache_temp"),
  (".bak", "cache_temp"), (".old", "cache_temp"), (".dmp", "cache_temp"),
  (".swp", "cache_temp"), (".swo", "cache_temp"),
  (".log", "log_file"),
  (".iso", "archive"), (".zip", "archive"), (".rar", "archive"),
  (".7z", "archive"), (".tar", "archive"), (".gz", "archive"),
  (".bz2", "archive"), (".xz", "archive"), (".tgz", "archive"),
  (".tbz2", "archive"), (".zst", "archive"),
  (".mp4", "old_media"), (".avi", "old_media"), (".mkv", "old_media"),
  (".mov", "old_media"), (".wmv", "old_media"), (".flv", "old_media"),
  (".webm", "old_media"), (".flac", "old_media"), (".wav", "old_media"),
  (".m4a", "old_media"), (".m4v", "old_media"),
  (".o", "build_artifact"), (".obj", "build_artifact"),
  (".pyc", "build_artifact"), (".pyo", "build_artifact"),
  (".class", "build_artifact"), (".elc", "build_artifact"),
  (".whl", "build_artifact")]

/-- Table `JUNK_EXTENSIONS` of `file_categories.py`. -/
def JUNK_EXTENSIONS : List String :=
  [".tmp", ".temp", ".cache", ".bak", ".old", ".dmp", ".swp", ".swo", ".log"]

/-- Table `JUNK_FOLDER_NAMES` of `file_categories.py`. -/
def JUNK_FOLDER_NAMES : List String := ["downloads", "download"]

/-- Table `TEMP_FOLDER_NAMES` of `file_categories.py`. -/
def TEMP_FOLDER_NAMES : List String := ["temp", "tmp", "cache", ".cache", "__pycache__"]

/-- The hard-coded archive-extension set of `ml_advisor.py` line 270. -/
def ARCHIVE_EXTS : List String := [".iso", ".zip", ".rar", ".7z", ".tar", ".gz"]

/-- A path as a list of lowercased components. -/
abbrev FPath := List String

/-- The platform/environment dependent protection and junk-directory lists
(`get_protected_dirs`, `get_protected_extensions`, `get_known_junk_dirs`):
static data consumed by the scan, supplied here as a configuration value.
Each known-junk entry is a path together with its declared category. -/
structure ScanConfig where
  protected_dirs : List FPath
  protected_exts : List String
  known_junk : List (FPath × String)
deriving DecidableEq, Repr

/-- Check `_is_under_protected_dir`: `path_lower.startswith(d + os.sep) or
path_lower == d`, which on component lists is prefix-of. -/
def is_under_protected_dir (path : FPath) (prot : List FPath) : Bool :=
  prot.any (fun d => d.isPrefixOf path)

/-- Check `_is_in_known_junk_dir`: first matching entry wins and supplies the
category; no match gives `(false, "")`. -/
def is_in_known_junk_dir (path : FPath) (junk : List (FPath × String)) : Bool × String :=
  match junk.find? (fun e => e.1.isPrefixOf path) with
  | some e => (true, e.2)
  | none => (false, "")

/-- Constant `_HASH_BLOCK = 4096`. -/
def HASH_BLOCK : ℕ := 4096

/-- The stream of bytes `_partial_md5` feeds to the MD5 digest: a first
`read(4096)` from the start, then — after `seek(-4096, 2)` only when
`size > 8192` — a second `read(4096)` from the current position. -/
def hashed_bytes (content : List ℕ) : List ℕ :=
  content.take HASH_BLOCK ++
    (if content.length > HASH_BLOCK * 2 then
      content.drop (content.length - HASH_BLOCK)
    else
      (content.drop HASH_BLOCK).take HASH_BLOCK)

/-- A directory entry of the modelled filesystem. `statOk` is whether
`fp.stat()` succeeds, `readable` whether `_partial_md5` succeeds. -/
structure FileEntry where
  name : String
  size : ℕ
  atime : ℚ
  mtime : ℚ
  ext : String
  statOk : Bool
  readable : Bool
  content : List ℕ
deriving DecidableEq, Repr

/-- A finite directory tree: own files plus named subdirectories. -/
inductive FSTree where
  | node (files : List FileEntry) (subs : List (String × FSTree))

/-- A collected raw file record (the dict built in phase 1 of `ml_scan`),
with the hashing inputs carried along. -/
structure RawFile where
  path : FPath
  size : ℕ
  atime : ℚ
  mtime : ℚ
  ext : String
  readable : Bool
  content : List ℕ
deriving DecidableEq, Repr

/-- Phase-1 treatment of one directory entry: skip on stat failure, skip
files below `min_size`, otherwise record the raw file. -/
def mk_raw_file (min_size : ℕ) (dirParts : FPath) (e : FileEntry) : Option RawFile :=
  if e.statOk = false then none
  else if e.size < min_size then none
  else some ⟨dirParts ++ [e.name], e.size, e.atime, e.mtime, e.ext, e.readable, e.content⟩

mutual
/-- The `os.walk` collection loop of `ml_scan` (phase 1): visit a directory
at `depth`; if `depth > max_depth` prune it entirely (its files included);
if it lies under a protected directory prune the whole subtree; otherwise
collect its eligible files and recurse into subdirectories. -/
def collect_dir (cfg : ScanConfig) (min_size max_depth : ℕ) :
    FSTree → FPath → ℕ → List RawFile
  | FSTree.node files subs, parts, depth =>
    if max_depth < depth then []
    else if is_under_protected_dir parts cfg.protected_dirs then []
    else files.filterMap (mk_raw_file min_size parts) ++
      collect_subs cfg min_size max_depth subs parts depth

/-- Collection over the subdirectory list, in order. -/
def collect_subs (cfg : ScanConfig) (min_size max_depth : ℕ) :
    List (String × FSTree) → FPath → ℕ → List RawFile
  | [], _, _ => []
  | (name, t) :: rest, parts, depth =>
    collect_dir cfg min_size max_depth t (parts ++ [name]) (depth + 1) ++
      collect_subs cfg min_size max_depth rest parts depth
end

/-- The collected raw-file list of a scan. The root is `none` when the root
path is invalid (does not exist or is not a directory): `os.walk` passes the
error to its swallowing `onerror` handler and yields nothing. A valid root
is its resolved component path together with its tree. -/
def collected_files (cfg : ScanConfig) (root : Option (FPath × FSTree))
    (min_size max_depth : ℕ) : List RawFile :=
  match root with
  | none => []
  | some (rootParts, t) => collect_dir cfg min_size max_depth t rootParts 0

/-- Insertion-ordered key list of a Python dict built by repeated
`d[k].append(...)` on a `defaultdict`: first occurrence order, no repeats. -/
def group_keys {K : Type} [DecidableEq K] (ks : List K) : List K :=
  ks.foldl (fun acc k => if k ∈ acc then acc else acc ++ [k]) []

/-- Grouping a list by a key function, in dict insertion order: the pairs
`(k, all elements with key k in list order)` for each distinct key `k`. -/
def group_pairs {α K : Type} [DecidableEq K] (key : α → K) (xs : List α) :
    List (K × List α) :=
  (group_keys (xs.map key)).map (fun k => (k, xs.filter (fun x => key x = k)))

/-- Phase 3 size pre-filter: `size_groups[f["size"]].append(f)`. -/
def size_groups (files : List RawFile) : List (ℕ × List RawFile) :=
  group_pairs (fun f => f.size) files

/-- Hashing `_partial_md5(f["path"])` for a collected file: `None` exactly on a read
error, otherwise the digested byte stream. -/
def file_hash (f : RawFile) : Option (List ℕ) :=
  if f.readable then some (hashed_bytes f.content) else none

/-- The `(hash, file)` pairs of one same-size group: files whose hash cannot
be computed are dropped (`if h:`). -/
def hash_pairs (g : List RawFile) : List (List ℕ × RawFile) :=
  g.filterMap (fun f => (file_hash f).map (fun h => (h, f)))

/-- Buckets `hash_buckets` of one same-size group: files keyed by partial hash, in
dict insertion order. -/
def hash_buckets (g : List RawFile) : List (List ℕ × List RawFile) :=
  (group_keys ((hash_pairs g).map Prod.fst)).map
    (fun k => (k, ((hash_pairs g).filter (fun p => p.1 = k)).map Prod.snd))

/-- The running state of phase 3: `dup_group_id`, `dup_map`,
`newest_in_group` and `total_dup_reclaim`. -/
structure DupState where
  dup_group_id : ℕ
  dup_map : List (FPath × ℕ)
  newest_in_group : List (ℕ × FPath)
  total_dup_reclaim : ℕ
deriving DecidableEq, Repr

/-- Selection `max(bucket, key=lambda f: f["mtime"])`: Python's `max` keeps the first
of equally-keyed elements and replaces only on strictly greater key. -/
def newest_of (f₀ : RawFile) (rest : List RawFile) : RawFile :=
  rest.foldl (fun best g => if best.mtime < g.mtime then g else best) f₀

/-- Processing of one hash bucket (`for h, bucket in hash_buckets.items()`):
buckets of fewer than two members are skipped; otherwise a fresh group id is
assigned, every member is mapped to it, the newest member is recorded, and
`size * (copies - 1)` bytes are added to the reclaimable total. -/
def process_bucket (sz : ℕ) (st : DupState) (bucket : List RawFile) : DupState :=
  match bucket with
  | [] => st
  | f₀ :: rest =>
    if rest.length = 0 then st
    else
      { dup_group_id := st.dup_group_id + 1,
        dup_map := st.dup_map ++
          (f₀ :: rest).map (fun f => (f.path, st.dup_group_id + 1)),
        newest_in_group := st.newest_in_group ++
          [(st.dup_group_id + 1, (newest_of f₀ rest).path)],
        total_dup_reclaim := st.total_dup_reclaim + sz * rest.length }

/-- Processing of one same-size group (`for sz, group in size_groups`):
groups of fewer than two files are skipped before any hashing. -/
def process_size_group (st : DupState) (p : ℕ × List RawFile) : DupState :=
  if p.2.length < 2 then st
  else (hash_buckets p.2).foldl (fun st' kb => process_bucket p.1 st' kb.2) st

/-- Phase 3, duplicate detection over the collected files. -/
def dup_detect (files : List RawFile) : DupState :=
  (size_groups files).foldl process_size_group ⟨0, [], [], 0⟩

/-- Lookup `dup_map.get(path, 0)` — in the scan every path is bound at most once,
so the first matching binding is the dict's binding. -/
def dict_get (m : List (FPath × ℕ)) (p : FPath) : ℕ :=
  match m.find? (fun e => e.1 = p) with
  | some e => e.2
  | none => 0

/-- Lookup `newest_in_group.get(gid)` — group ids are bound exactly once. -/
def dict_find (m : List (ℕ × FPath)) (k : ℕ) : Option FPath :=
  (m.find? (fun e => e.1 = k)).map (fun e => e.2)

/-- Lookup `dup_map.get(path, 0)` for a file (line 315). -/
def file_gid (st : DupState) (f : RawFile) : ℕ := dict_get st.dup_map f.path

/-- Flag `dup_gid > 0 and newest_in_group.get(dup_gid) == path` (line 316). -/
def file_is_newest (st : DupState) (f : RawFile) : Bool :=
  0 < file_gid st f ∧ dict_find st.newest_in_group (file_gid st f) = some f.path

/-- Exact `statistics.mean` on rationals (exact). -/
def qmean (xs : List ℚ) : ℚ := xs.sum / xs.length

/-- The sample variance underlying `statistics.stdev` (denominator `n - 1`);
only ever used behind the `len > 1` guard, 0 otherwise. -/
def sample_variance (xs : List ℚ) : ℚ :=
  if xs.length ≤ 1 then 0
  else ((xs.map (fun x => (x - qmean xs) ^ 2)).sum) / ((xs.length : ℚ) - 1)

/-- Function `statistics.stdev`: the square root of the sample variance. -/
noncomputable def stdev (xs : List ℚ) : ℝ := Real.sqrt (sample_variance xs)

/-- Lines 188-196 for one dimension: `stdev(xs) if len(xs) > 1 else 1.0`,
then `if sd == 0: sd = 1.0`. -/
noncomputable def floored_stdev (xs : List ℚ) : ℝ :=
  let sd := if 1 < xs.length then stdev xs else 1
  if sd = 0 then 1 else sd

/-- The same flooring applied to a raw standard-deviation value handed to
the rational-valued pipeline (`n` is the sample size). -/
def floored_sd_param (n : ℕ) (sd_raw : ℚ) : ℚ :=
  let sd := if 1 < n then sd_raw else 1
  if sd = 0 then 1 else sd

/-- Python `int()` on a rational: truncation toward zero. -/
def py_int (q : ℚ) : ℤ := if 0 ≤ q then ⌊q⌋ else ⌈q⌉

/-- One statistical component (lines 295-297 and 300-302): points are added
only for a z-score strictly above 1, as `min(int(5 * z), 15)`. -/
def z_points (z : ℚ) : ℤ := if 1 < z then min (py_int (5 * z)) 15 else 0

/-- The distribution statistics handed to the scorer: scan time, means, and
the two (already floored) standard deviations. -/
structure Stats where
  now : ℚ
  size_mean : ℚ
  size_sd : ℚ
  age_mean : ℚ
  age_sd : ℚ
deriving DecidableEq, Repr

/-- Value `size_z` of a file (line 291). -/
def size_z (st : Stats) (f : RawFile) : ℚ := ((f.size : ℚ) - st.size_mean) / st.size_sd

/-- Value `age_z` of a file (lines 292-293), from modification age `now - mtime`. -/
def age_z (st : Stats) (f : RawFile) : ℚ := ((st.now - f.mtime) - st.age_mean) / st.age_sd

/-- The statistical score component of a file (max 30). -/
def stat_component (st : Stats) (f : RawFile) : ℤ :=
  z_points (size_z st f) + z_points (age_z st f)

/-- The extension part of the rule-based component (lines 261-272). -/
def ext_points (ext : String) : ℤ :=
  if ext ∈ JUNK_EXTENSIONS then 15
  else
    match List.lookup ext EXTENSION_CATEGORIES with
    | some cat_key =>
      match List.lookup cat_key CATEGORIES with
      | some cat =>
        if cat.default_safety = SafetyTier.safe then 10
        else if ext ∈ ARCHIVE_EXTS then 5 else 0
      | none => if ext ∈ ARCHIVE_EXTS then 5 else 0
    | none => 0

/-- The rule-based score component (lines 258-287, max 50): extension
points, download-like folder (+10), temp/cache-like folder (+15), known
junk directory (+10); the folder checks run over every component of the
file's path, as `Path(path).parts` does. -/
def rule_component (cfg : ScanConfig) (f : RawFile) : ℤ :=
  ext_points f.ext +
  (if f.path.any (fun name => name ∈ JUNK_FOLDER_NAMES) then 10 else 0) +
  (if f.path.any (fun name => name ∈ TEMP_FOLDER_NAMES) then 15 else 0) +
  (if (is_in_known_junk_dir f.path cfg.known_junk).1 then 10 else 0)

/-- The duplicate score component (lines 313-322): +20 for a duplicate that
is not the newest of its group. -/
def dup_component (st : DupState) (f : RawFile) : ℤ :=
  if 0 < file_gid st f ∧ ¬ file_is_newest st f then 20 else 0

/-- The final scored record (`FileInfo`), without its display-only string
fields (formatted dates, recommendation, reasons). -/
structure FileInfo where
  path : FPath
  size : ℕ
  extension : String
  category : String
  safety : SafetyTier
  score : ℤ
  confidence : String
  duplicate_group : ℕ
  is_newest_in_group : Bool
deriving DecidableEq, Repr

/-- Category assignment (lines 344-358); the two final branches of the
source (`age > _SECONDS_IN_YEAR` and the catch-all) both give
"large_unused". -/
def category_of (cfg : ScanConfig) (st : DupState) (f : RawFile) : String :=
  if 0 < file_gid st f ∧ ¬ file_is_newest st f then "duplicate"
  else if (is_in_known_junk_dir f.path cfg.known_junk).1 then
    (is_in_known_junk_dir f.path cfg.known_junk).2
  else
    match List.lookup f.ext EXTENSION_CATEGORIES with
    | some cat_key => cat_key
    | none =>
      if f.path.any (fun name => name ∈ JUNK_FOLDER_NAMES) then "old_download"
      else if f.path.any (fun name => name ∈ TEMP_FOLDER_NAMES) then "cache_temp"
      else "large_unused"

/-- Scoring, safety classification and record assembly for one file
(lines 248-397 of `ml_scan`): the three additive components, the clamp to
100, then the protection override (protected extension or protected
directory forces score 0 and tier protected), the tier thresholds 60/30,
and the confidence thresholds 70/40 on the (possibly overridden) score. -/
def score_file (cfg : ScanConfig) (st : Stats) (dupSt : DupState) (f : RawFile) : FileInfo :=
  let raw_score := rule_component cfg f + stat_component st f + dup_component dupSt f
  let clamped := min raw_score 100
  let is_prot := f.ext ∈ cfg.protected_exts ∨
    is_under_protected_dir f.path cfg.protected_dirs = true
  let score := if is_prot then 0 else clamped
  let safety :=
    if is_prot then SafetyTier.protected_
    else if 60 ≤ clamped then SafetyTier.safe
    else if 30 ≤ clamped then SafetyTier.review
    else SafetyTier.unknown
  let confidence :=
    if 70 ≤ score then "High" else if 40 ≤ score then "Medium" else "Low"
  { path := f.path,
    size := f.size,
    extension := f.ext,
    category := category_of cfg dupSt f,
    safety := safety,
    score := score,
    confidence := confidence,
    duplicate_group := file_gid dupSt f,
    is_newest_in_group := file_is_newest dupSt f }

/-- Phase 7 category summary (lines 413-418): counts and sizes per
category, in first-appearance order over the sorted result list. -/
def add_to_summary (acc : List (String × ℕ × ℕ)) (fi : FileInfo) : List (String × ℕ × ℕ) :=
  if acc.any (fun e => e.1 = fi.category) then
    acc.map (fun e => if e.1 = fi.category then (e.1, e.2.1 + 1, e.2.2 + fi.size) else e)
  else acc ++ [(fi.category, 1, fi.size)]

/-- The category summary of a result list. -/
def category_summary (results : List FileInfo) : List (String × ℕ × ℕ) :=
  results.foldl add_to_summary []

/-- The scan result; of `scan_stats` only the `files_scanned` count is
kept (the remaining entries are diagnostic copies of the means / deviations
already fixed by the pipeline's arguments). -/
structure ScanResult where
  files : List FileInfo
  duplicates_found : ℕ
  duplicate_space_reclaimable : ℕ
  total_reclaimable : ℕ
  category_summary : List (String × ℕ × ℕ)
  files_scanned : ℕ
deriving DecidableEq, Repr

/-- The empty result returned when no file is collected (lines 176-180). -/
def empty_scan_result : ScanResult := ⟨[], 0, 0, 0, [], 0⟩

/-- Phase 2 statistics of a scan (lines 183-196): scan time, mean size and
mean modification age, and the floored standard deviations (whose raw
`statistics.stdev` values are the pipeline's `sd_size_raw` / `sd_age_raw`
arguments, see the header note). -/
def scan_stats_of (now : ℚ) (sd_size_raw sd_age_raw : ℚ) (raw : List RawFile) : Stats :=
  ⟨now, qmean (raw.map (fun f => (f.size : ℚ))),
   floored_sd_param raw.length sd_size_raw,
   qmean (raw.map (fun f => now - f.mtime)),
   floored_sd_param raw.length sd_age_raw⟩

/-- Phases 4-6 over the collected list: every file scored, then protected
files dropped (lines 399-401). -/
def scan_results0 (cfg : ScanConfig) (now sd_size_raw sd_age_raw : ℚ)
    (raw : List RawFile) : List FileInfo :=
  (raw.map (score_file cfg (scan_stats_of now sd_size_raw sd_age_raw raw)
    (dup_detect raw))).filter (fun fi => fi.safety ≠ SafetyTier.protected_)

/-- The `ml_scan` pipeline. `root` is `none` for an invalid root path (the
walk then yields nothing, see `collected_files`); `sd_size_raw` /
`sd_age_raw` are the values of `statistics.stdev` on the collected sizes
and ages, handed in as arguments (see the header note) and floored exactly
as lines 188-196 do; every other phase is computed from the source. The
result list is the non-protected scored records sorted by score descending
(line 410), `total_reclaimable` their summed sizes (line 402). -/
def ml_scan (cfg : ScanConfig) (root : Option (FPath × FSTree))
    (min_size_mb : ℕ) (max_depth : ℕ) (now : ℚ)
    (sd_size_raw sd_age_raw : ℚ) : ScanResult :=
  let raw := collected_files cfg root (min_size_mb * 1024 * 1024) max_depth
  if raw = [] then empty_scan_result
  else
    let results0 := scan_results0 cfg now sd_size_raw sd_age_raw raw
    let results := results0.mergeSort (fun a b => decide (b.score ≤ a.score))
    ⟨results, (dup_detect raw).dup_group_id, (dup_detect raw).total_dup_reclaim,
     (results0.map (fun fi => fi.size)).sum,
     category_summary results, raw.length⟩

/-- The percentages reported from the scoring loop (lines 404-407): at
every index with `(idx + 1) % max(n // 10, 1) == 0`, the value
`min(50 + int(40 * (idx + 1) / n), 90)`. The sequence of percentages of a
whole scan is `progress_seq`: 5 and 20 around collection (lines 132-133
and 173-174), then — only when files were collected — 30 after statistics,
50 after duplicate detection, the scoring ticks, and the final 100
(lines 420-421). -/
def progress_ticks (n : ℕ) : List ℕ :=
  (List.range n).filterMap (fun idx =>
    if (idx + 1) % max (n / 10) 1 = 0 then
      some (min (50 + 40 * (idx + 1) / n) 90)
    else none)

/-- The full reported percentage sequence for `n` collected files; the
early return of lines 176-180 stops after the 20% report. -/
def progress_seq (n : ℕ) : List ℕ :=
  if n = 0 then [5, 20]
  else [5, 20, 30, 50] ++ progress_ticks n ++ [100]

/-- The percentages a given scan reports. -/
def ml_scan_progress (cfg : ScanConfig) (root : Option (FPath × FSTree))
    (min_size_mb : ℕ) (max_depth : ℕ) : List ℕ :=
  progress_seq (collected_files cfg root (min_size_mb * 1024 * 1024) max_depth).length

/-- Modelled from the spec (for comparison with `hashed_bytes`, claim C3):
digest exactly the first 4096 bytes and, exactly when the file is larger
than 8192 bytes, additionally the last 4096 bytes; no other bytes. -/
def spec_hashed_bytes (content : List ℕ) : List ℕ :=
  content.take HASH_BLOCK ++
    (if content.length > HASH_BLOCK * 2 then
      content.drop (content.length - HASH_BLOCK)
    else [])

/-- Modelled from the spec (for comparison with `z_points`, claim C4): add
`min(round(5 × z), 15)` when `z > 1`. -/
def spec_z_points (z : ℚ) : ℤ := if 1 < z then min (round (5 * z)) 15 else 0

/-- Modelled from the spec (claim C4): the statistical component with
`round` as the claim words it. -/
def spec_stat_component (st : Stats) (f : RawFile) : ℤ :=
  spec_z_points (size_z st f) + spec_z_points (age_z st f)

/-- The confirmed duplicate buckets of one same-size group: the hash
buckets of at least two members, tagged with the group's size. -/
def confirmed_of_group (sz : ℕ) (bl : List (List ℕ × List RawFile)) :
    List (ℕ × List RawFile) :=
  bl.filterMap (fun kb => if kb.2.length < 2 then none else some (sz, kb.2))

/-- All confirmed duplicate groups of a scan, in discovery order: per
same-size group of at least two files, its confirmed hash buckets. -/
def confirmed_buckets (files : List RawFile) : List (ℕ × List RawFile) :=
  (size_groups files).flatMap (fun p =>
    if p.2.length < 2 then [] else confirmed_of_group p.1 (hash_buckets p.2))

/-- The `dup_map` contents in closed form: the members of the k-th
confirmed bucket (0-based, after `start`) are bound to id `start + k + 1`. -/
def dup_map_spec : List (ℕ × List RawFile) → ℕ → List (FPath × ℕ)
  | [], _ => []
  | b :: rest, k => b.2.map (fun f => (f.path, k + 1)) ++ dup_map_spec rest (k + 1)

/-- The newest member of a bucket (`max(bucket, key=mtime)`). -/
def bucket_newest (b : List RawFile) : FPath :=
  match b with
  | [] => []
  | f₀ :: rest => (newest_of f₀ rest).path

/-- The `newest_in_group` contents in closed form. -/
def newest_spec : List (ℕ × List RawFile) → ℕ → List (ℕ × FPath)
  | [], _ => []
  | b :: rest, k => (k + 1, bucket_newest b.2) :: newest_spec rest (k + 1)

/-- The reclaimable duplicate bytes in closed form: per confirmed bucket,
its size times one less than its member count. -/
def reclaim_spec (bs : List (ℕ × List RawFile)) : ℕ :=
  (bs.map (fun b => b.1 * (b.2.length - 1))).sum

/-- A sample configuration: one protected directory, one protected
extension, no known-junk directories. -/
def cfg1 : ScanConfig := ⟨[["root", "prot"]], [".so"], []⟩

/-- Sample file: 100 bytes, modification time 0, same content as `entry_b`. -/
def entry_a : FileEntry := ⟨"a.bin", 100, 0, 0, ".bin", true, true, [1, 2, 3]⟩

/-- Sample file with a protected extension, newest of its content. -/
def entry_b : FileEntry := ⟨"b.so", 100, 0, 5, ".so", true, true, [1, 2, 3]⟩

/-- Sample file living under the protected directory. -/
def entry_c : FileEntry := ⟨"c.tmp", 999999, 0, 0, ".tmp", true, true, [7]⟩

/-- A sample tree: two duplicate files at the root, one file inside the
protected subdirectory. -/
def tree1 : FSTree :=
  FSTree.node [entry_a, entry_b] [("prot", FSTree.node [entry_c] [])]

/-- A sample valid root. -/
def root1 : Option (FPath × FSTree) := some (["root"], tree1)

/-- A valid but empty root: the scan collects nothing. -/
def root_empty : Option (FPath × FSTree) := some (["root"], FSTree.node [] [])

/-- Statistics pinned for the C4 counterexample: size mean 0, size
standard deviation 2, age mean 0, age standard deviation 1. -/
def stats4 : Stats := ⟨0, 0, 2, 0, 1⟩

/-- A 3-byte file modified at scan time: its size z-score under `stats4`
is 3/2, its age z-score 0. -/
def file4 : RawFile := ⟨["root", "x.bin"], 3, 0, 0, ".bin", true, [0]⟩

/-- The first (only) result record of the sample scan of `root1`. -/
def fi_w : FileInfo := (ml_scan cfg1 root1 0 6 10 0 0).files.headD
  ⟨[], 0, "", "", SafetyTier.unknown, 0, "", 0, false⟩

/-- A 4097-byte file content (one byte past the first read block). -/
def c3_input : List ℕ := List.replicate 4097 0

/-- The first (only) confirmed duplicate bucket of the sample scan. -/
def bucket_w : ℕ × List RawFile :=
  (confirmed_buckets (collected_files cfg1 root1 0 6)).headD (0, [])

/-! Shared pipeline lemmas. -/

/-- A scan that collects nothing returns the empty result. -/
theorem ml_scan_eq_of_empty {cfg root msz md} (now sd1 sd2 : ℚ)
    (h : collected_files cfg root (msz * 1024 * 1024) md = []) :
    ml_scan cfg root msz md now sd1 sd2 = empty_scan_result := by
  simp [ml_scan, h]

/-- A scan that collects something returns the assembled result. -/
theorem ml_scan_eq_of_ne {cfg root msz md} (now sd1 sd2 : ℚ)
    (h : collected_files cfg root (msz * 1024 * 1024) md ≠ []) :
    ml_scan cfg root msz md now sd1 sd2 =
      ⟨(scan_results0 cfg now sd1 sd2
          (collected_files cfg root (msz * 1024 * 1024) md)).mergeSort
            (fun a b => decide (b.score ≤ a.score)),
        (dup_detect (collected_files cfg root (msz * 1024 * 1024) md)).dup_group_id,
        (dup_detect (collected_files cfg root (msz * 1024 * 1024) md)).total_dup_reclaim,
        ((scan_results0 cfg now sd1 sd2
          (collected_files cfg root (msz * 1024 * 1024) md)).map (fun fi => fi.size)).sum,
        category_summary ((scan_results0 cfg now sd1 sd2
          (collected_files cfg root (msz * 1024 * 1024) md)).mergeSort
            (fun a b => decide (b.score ≤ a.score))),
        (collected_files cfg root (msz * 1024 * 1024) md).length⟩ := by
  simp [ml_scan, h]

/-! Claim C2: invalid-root behavior. -/

/-- Claim C2 counterexample: with an invalid root the scan does NOT signal
a fatal error — `os.walk`'s failure is swallowed by the `onerror` handler,
so `ml_scan` runs to completion and hands back the well-formed empty
`ScanResult` (the claim asserts an immediate error and no result). -/
theorem C2_counterexample : ml_scan cfg1 none 50 6 0 1 1 = empty_scan_result := rfl

/-- Claim C2 as amended: for an invalid root (nonexistent or not a
directory) the walk raises nothing; it yields no entries, and the scan
returns the well-formed empty `ScanResult` after reporting 5 and 20
percent — exactly the zero-eligible-files outcome. -/
theorem C2_invalid_root_no_error (cfg : ScanConfig) (min_size_mb max_depth : ℕ)
    (now sd1 sd2 : ℚ) :
    ml_scan cfg none min_size_mb max_depth now sd1 sd2 = empty_scan_result ∧
    ml_scan_progress cfg none min_size_mb max_depth = [5, 20] :=
  ⟨rfl, rfl⟩

/-! Claim C3: which bytes the hash digests. -/

/-- Claim C3 counterexample: on a 4097-byte file the second `read(4096)`
continues at offset 4096 (no seek happens, since the file is not larger
than 8192 bytes) and returns byte 4096, so the digested stream is all 4097
bytes — not the claimed "exactly the first 4096 bytes". -/
theorem C3_counterexample : hashed_bytes c3_input ≠ spec_hashed_bytes c3_input := by
  have hlen : c3_input.length = 4097 := by
    rw [c3_input]; exact List.length_replicate 4097 0
  intro h
  have h1 : (hashed_bytes c3_input).length = 4097 := by
    unfold hashed_bytes HASH_BLOCK
    rw [if_neg (by rw [hlen]; norm_num)]
    simp only [List.length_append, List.length_take, List.length_drop, hlen]
    omega
  have h2 : (spec_hashed_bytes c3_input).length = 4096 := by
    unfold spec_hashed_bytes HASH_BLOCK
    rw [if_neg (by rw [hlen]; norm_num)]
    simp only [List.length_append, List.length_take, List.length_nil, hlen]
    omega
  rw [h, h2] at h1
  exact absurd h1 (by norm_num)

/-- Claim C3 as amended: for a file larger than 8192 bytes the hash
digests exactly the first 4096 and the last 4096 bytes; for a file of at
most 8192 bytes the second read continues from offset 4096 without
seeking, so the hash digests the entire file. -/
theorem C3_hashed_bytes (content : List ℕ) :
    hashed_bytes content =
      if 8192 < content.length then
        content.take 4096 ++ content.drop (content.length - 4096)
      else content := by
  unfold hashed_bytes HASH_BLOCK
  by_cases h : 8192 < content.length
  · rw [if_pos (by omega), if_pos h]
  · rw [if_neg (by omega), if_neg h]
    have hd : (content.drop 4096).take 4096 = content.drop 4096 := by
      apply List.take_of_length_le
      simp only [List.length_drop]
      omega
    rw [hd, List.take_append_drop]

/-! Claim C4: the statistical score component. -/

/-- Claim C4 counterexample: at size z-score 3/2 the code adds
`min(int(5 * 1.5), 15) = 7` where the claim's formula
`min(round(5 × 1.5), 15)` gives 8 — the code truncates, it does not
round. -/
theorem C4_counterexample :
    stat_component stats4 file4 = 7 ∧ spec_stat_component stats4 file4 = 8 ∧
      stat_component stats4 file4 ≠ spec_stat_component stats4 file4 := by
  refine ⟨?_, ?_, ?_⟩ <;> with_unfolding_all decide

/-- Claim C4 as amended: the statistical component adds
`min(int(5 × sizeZ), 15)` — `int()` truncates toward zero, which on the
`z > 1` branch is the floor, not rounding — when `sizeZ > 1`, and likewise
for `ageZ` computed from modification age; nothing is added for a z-score
at most 1. -/
theorem C4_stat_component_floor (st : Stats) (f : RawFile) :
    stat_component st f =
      (if 1 < size_z st f then min ⌊5 * size_z st f⌋ 15 else 0) +
      (if 1 < age_z st f then min ⌊5 * age_z st f⌋ 15 else 0) := by
  have key : ∀ z : ℚ, z_points z = if 1 < z then min ⌊5 * z⌋ 15 else 0 := by
    intro z
    unfold z_points py_int
    by_cases hz : 1 < z
    · rw [if_pos hz, if_pos hz, if_pos (by linarith)]
    · rw [if_neg hz, if_neg hz]
  unfold stat_component
  rw [key, key]

/-! Claim C8: the standard-deviation floor. -/

/-- The sample variance is never negative. -/
theorem sample_variance_nonneg (xs : List ℚ) : 0 ≤ sample_variance xs := by
  unfold sample_variance
  split
  · exact le_refl 0
  · next h =>
    apply div_nonneg
    · apply List.sum_nonneg
      intro x hx
      obtain ⟨y, _, rfl⟩ := List.mem_map.mp hx
      positivity
    · have h2 : (2 : ℚ) ≤ (xs.length : ℚ) := by exact_mod_cast by omega
      linarith

/-- Claim C8: each standard deviation used for the z-scores is positive —
it is set to 1.0 when the sample has at most one element or zero variance
(`stdev(xs) if len > 1 else 1.0` followed by the `== 0` floor) — so the
z-score divisions never divide by zero; the same holds for the floored
raw-deviation parameters the rational pipeline consumes. -/
theorem C8_stdev_floor (xs : List ℚ) :
    0 < floored_stdev xs ∧
    ((xs.length ≤ 1 ∨ sample_variance xs = 0) → floored_stdev xs = 1) ∧
    (∀ (n : ℕ) (sd_raw : ℚ), 0 ≤ sd_raw → 0 < floored_sd_param n sd_raw) := by
  refine ⟨?_, ?_, ?_⟩
  · simp only [floored_stdev, stdev]
    by_cases h1 : 1 < xs.length
    · simp only [if_pos h1]
      by_cases h0 : Real.sqrt (sample_variance xs) = 0
      · rw [if_pos h0]; exact one_pos
      · rw [if_neg h0]; exact lt_of_le_of_ne (Real.sqrt_nonneg _) (Ne.symm h0)
    · simp only [if_neg h1]
      rw [if_neg one_ne_zero]; exact one_pos
  · intro h
    rcases h with h | h
    · have h1 : ¬ 1 < xs.length := by omega
      simp only [floored_stdev, stdev, if_neg h1]
      rw [if_neg one_ne_zero]
    · simp only [floored_stdev, stdev, h, Rat.cast_zero, Real.sqrt_zero]
      by_cases h1 : 1 < xs.length
      · simp only [if_pos h1]; simp
      · simp only [if_neg h1]; rw [if_neg one_ne_zero]
  · intro n sd_raw hraw
    simp only [floored_sd_param]
    by_cases h1 : 1 < n
    · simp only [if_pos h1]
      by_cases h0 : sd_raw = 0
      · rw [if_pos h0]; exact one_pos
      · rw [if_neg h0]; exact lt_of_le_of_ne hraw (Ne.symm h0)
    · simp only [if_neg h1]
      rw [if_neg one_ne_zero]; exact one_pos

/-- Claim C8 witness: on the two-element zero-variance sample `[3, 3]` the
floored deviation is exactly 1 and positive, and a floored zero raw
deviation is positive. -/
theorem C8_witness :
    (([3, 3] : List ℚ).length ≤ 1 ∨ sample_variance [3, 3] = 0) ∧
    floored_stdev [3, 3] = 1 ∧ 0 < floored_stdev [3, 3] ∧
    (0 : ℚ) ≤ 0 ∧ 0 < floored_sd_param 2 0 := by
  have hv : sample_variance ([3, 3] : List ℚ) = 0 := by
    with_unfolding_all decide
  exact ⟨Or.inr hv, (C8_stdev_floor [3, 3]).2.1 (Or.inr hv),
    (C8_stdev_floor [3, 3]).1, le_refl 0,
    (C8_stdev_floor [3, 3]).2.2 2 0 (le_refl 0)⟩

/-! Claim C9: result order. -/

/-- Claim C9: the result list of every scan is non-increasing in score
between adjacent entries (it is sorted by score descending). -/
theorem C9_sorted_desc (cfg : ScanConfig) (root : Option (FPath × FSTree))
    (msz md : ℕ) (now sd1 sd2 : ℚ) :
    List.Chain' (fun a b : FileInfo => b.score ≤ a.score)
      (ml_scan cfg root msz md now sd1 sd2).files := by
  by_cases h : collected_files cfg root (msz * 1024 * 1024) md = []
  · rw [ml_scan_eq_of_empty now sd1 sd2 h]
    exact List.chain'_nil
  · rw [ml_scan_eq_of_ne now sd1 sd2 h]
    have hp := @List.sorted_mergeSort FileInfo
      (fun a b : FileInfo => decide (b.score ≤ a.score))
      (fun a b c hab hbc => by
        simp only [decide_eq_true_eq] at hab hbc ⊢
        exact le_trans hbc hab)
      (fun a b => by
        simp only [Bool.or_eq_true, decide_eq_true_eq]
        exact le_total b.score a.score)
      (scan_results0 cfg now sd1 sd2 (collected_files cfg root (msz * 1024 * 1024) md))
    have hp' := hp.imp (fun {a b} hab => by
      simpa only [decide_eq_true_eq] using hab)
    exact hp'.chain'

/-! Claim C10: protected-extension files inside duplicate groups. -/

/-- Claim C10: in the sample scan of `root1`, the protected-extension file
`b.so` is collected (only protected directories are pruned, so it is one of
the two files entering the statistics sample), it is a member of the one
confirmed duplicate group, its 100 bytes are what
`duplicate_space_reclaimable` reports, yet no returned record carries its
path — and the group visible in `files` consists of the single record for
`a.bin`, which is not marked newest, so the visible group has zero members
with `is_newest_in_group`. -/
theorem C10_hidden_duplicate_members :
    (ml_scan cfg1 root1 0 6 10 0 0).files_scanned = 2 ∧
    (ml_scan cfg1 root1 0 6 10 0 0).duplicates_found = 1 ∧
    (ml_scan cfg1 root1 0 6 10 0 0).duplicate_space_reclaimable = 100 ∧
    (∃ f ∈ collected_files cfg1 root1 0 6,
      f.ext ∈ cfg1.protected_exts ∧
      0 < file_gid (dup_detect (collected_files cfg1 root1 0 6)) f ∧
      ∀ fi ∈ (ml_scan cfg1 root1 0 6 10 0 0).files, fi.path ≠ f.path) ∧
    (ml_scan cfg1 root1 0 6 10 0 0).files.map
        (fun fi => (fi.path, fi.duplicate_group, fi.is_newest_in_group)) =
      [(["root", "a.bin"], 1, false)] := by
  refine ⟨?_, ?_, ?_, ?_, ?_⟩ <;> with_unfolding_all decide

/-! Claims C1 and C7: protection override and tier thresholds. -/

/-- Scoring never changes a file's path. -/
theorem score_file_path (cfg : ScanConfig) (st : Stats) (dupSt : DupState)
    (f : RawFile) : (score_file cfg st dupSt f).path = f.path := rfl

/-- Scoring never changes a file's extension. -/
theorem score_file_extension (cfg : ScanConfig) (st : Stats) (dupSt : DupState)
    (f : RawFile) : (score_file cfg st dupSt f).extension = f.ext := rfl

/-- A scored record is tier protected exactly when its extension is
protected or its path lies under a protected directory. -/
theorem score_file_protected_iff (cfg : ScanConfig) (st : Stats) (dupSt : DupState)
    (f : RawFile) :
    (score_file cfg st dupSt f).safety = SafetyTier.protected_ ↔
      (f.ext ∈ cfg.protected_exts ∨
        is_under_protected_dir f.path cfg.protected_dirs = true) := by
  simp only [score_file]
  by_cases hp : f.ext ∈ cfg.protected_exts ∨
      is_under_protected_dir f.path cfg.protected_dirs = true
  · rw [if_pos hp]
    simp [hp]
  · rw [if_neg hp]
    split_ifs <;> simp [hp]

/-- For a non-protected scored record the safety tier is decided by the
60/30 thresholds on the recorded score. -/
theorem score_file_tier (cfg : ScanConfig) (st : Stats) (dupSt : DupState)
    (f : RawFile)
    (h : (score_file cfg st dupSt f).safety ≠ SafetyTier.protected_) :
    ((score_file cfg st dupSt f).safety = SafetyTier.safe ↔
      60 ≤ (score_file cfg st dupSt f).score) ∧
    ((score_file cfg st dupSt f).safety = SafetyTier.review ↔
      30 ≤ (score_file cfg st dupSt f).score ∧ (score_file cfg st dupSt f).score < 60) ∧
    ((score_file cfg st dupSt f).safety = SafetyTier.unknown ↔
      (score_file cfg st dupSt f).score < 30) := by
  have hp : ¬ (f.ext ∈ cfg.protected_exts ∨
      is_under_protected_dir f.path cfg.protected_dirs = true) :=
    fun hc => h ((score_file_protected_iff cfg st dupSt f).mpr hc)
  simp only [score_file, if_neg hp]
  split_ifs with h60 h30 <;> refine ⟨?_, ?_, ?_⟩ <;> simp <;> omega

/-- Every record of a scan's result list is a non-protected scored record
of a collected file. -/
theorem mem_ml_scan_files {cfg : ScanConfig} {root : Option (FPath × FSTree)}
    {msz md : ℕ} {now sd1 sd2 : ℚ} {fi : FileInfo}
    (hfi : fi ∈ (ml_scan cfg root msz md now sd1 sd2).files) :
    fi.safety ≠ SafetyTier.protected_ ∧
    ∃ f ∈ collected_files cfg root (msz * 1024 * 1024) md,
      fi = score_file cfg
        (scan_stats_of now sd1 sd2 (collected_files cfg root (msz * 1024 * 1024) md))
        (dup_detect (collected_files cfg root (msz * 1024 * 1024) md)) f := by
  by_cases h : collected_files cfg root (msz * 1024 * 1024) md = []
  · rw [ml_scan_eq_of_empty now sd1 sd2 h] at hfi
    simp [empty_scan_result] at hfi
  · rw [ml_scan_eq_of_ne now sd1 sd2 h] at hfi
    simp only [List.mem_mergeSort, scan_results0, List.mem_filter, List.mem_map,
      decide_eq_true_eq] at hfi
    obtain ⟨⟨f, hf, heq⟩, hsafe⟩ := hfi
    exact ⟨hsafe, f, hf, heq.symm⟩

/-- Claim C1: no record of the result list has a protected extension or a
path under a protected directory, and `total_reclaimable` is exactly the
sum of the sizes of the returned records — protected files contribute
nothing, whatever the score inputs are. -/
theorem C1_protected_exclusion (cfg : ScanConfig) (root : Option (FPath × FSTree))
    (msz md : ℕ) (now sd1 sd2 : ℚ) :
    (∀ fi ∈ (ml_scan cfg root msz md now sd1 sd2).files,
      fi.extension ∉ cfg.protected_exts ∧
      is_under_protected_dir fi.path cfg.protected_dirs = false) ∧
    (ml_scan cfg root msz md now sd1 sd2).total_reclaimable =
      ((ml_scan cfg root msz md now sd1 sd2).files.map (fun fi => fi.size)).sum := by
  constructor
  · intro fi hfi
    obtain ⟨hsafety, f, hf, rfl⟩ := mem_ml_scan_files hfi
    have hp : ¬ (f.ext ∈ cfg.protected_exts ∨
        is_under_protected_dir f.path cfg.protected_dirs = true) :=
      fun hc => hsafety ((score_file_protected_iff _ _ _ f).mpr hc)
    push_neg at hp
    refine ⟨?_, ?_⟩
    · rw [score_file_extension]
      exact hp.1
    · rw [score_file_path]
      exact Bool.not_eq_true _ ▸ hp.2
  · by_cases h : collected_files cfg root (msz * 1024 * 1024) md = []
    · rw [ml_scan_eq_of_empty now sd1 sd2 h]
      rfl
    · rw [ml_scan_eq_of_ne now sd1 sd2 h]
      dsimp only
      exact (((List.mergeSort_perm
        (scan_results0 cfg now sd1 sd2 (collected_files cfg root (msz * 1024 * 1024) md))
        (fun a b => decide (b.score ≤ a.score))).map
          (fun fi => fi.size)).sum_eq).symm

/-- Claim C1 witness: the sample scan's returned record is unprotected and
the reclaimable total is the sum over the returned records. -/
theorem C1_witness :
    fi_w ∈ (ml_scan cfg1 root1 0 6 10 0 0).files ∧
    (fi_w.extension ∉ cfg1.protected_exts ∧
      is_under_protected_dir fi_w.path cfg1.protected_dirs = false) ∧
    (ml_scan cfg1 root1 0 6 10 0 0).total_reclaimable =
      ((ml_scan cfg1 root1 0 6 10 0 0).files.map (fun fi => fi.size)).sum :=
  have hm : fi_w ∈ (ml_scan cfg1 root1 0 6 10 0 0).files := by
    with_unfolding_all decide
  ⟨hm, (C1_protected_exclusion cfg1 root1 0 6 10 0 0).1 fi_w hm,
    (C1_protected_exclusion cfg1 root1 0 6 10 0 0).2⟩

/-- Claim C7: for every returned (hence non-protected) record, tier safe
holds exactly for score at least 60, review exactly for score in [30, 60),
and unknown exactly for score below 30. -/
theorem C7_tier_consistency (cfg : ScanConfig) (root : Option (FPath × FSTree))
    (msz md : ℕ) (now sd1 sd2 : ℚ) (fi : FileInfo)
    (hfi : fi ∈ (ml_scan cfg root msz md now sd1 sd2).files) :
    (fi.safety = SafetyTier.safe ↔ 60 ≤ fi.score) ∧
    (fi.safety = SafetyTier.review ↔ 30 ≤ fi.score ∧ fi.score < 60) ∧
    (fi.safety = SafetyTier.unknown ↔ fi.score < 30) := by
  obtain ⟨hsafety, f, hf, rfl⟩ := mem_ml_scan_files hfi
  exact score_file_tier _ _ _ f hsafety

/-- Claim C7 witness: the tier thresholds instantiated on the sample
scan's returned record (score 32, tier review). -/
theorem C7_witness :
    fi_w ∈ (ml_scan cfg1 root1 0 6 10 0 0).files ∧
    ((fi_w.safety = SafetyTier.safe ↔ 60 ≤ fi_w.score) ∧
     (fi_w.safety = SafetyTier.review ↔ 30 ≤ fi_w.score ∧ fi_w.score < 60) ∧
     (fi_w.safety = SafetyTier.unknown ↔ fi_w.score < 30)) :=
  have hm : fi_w ∈ (ml_scan cfg1 root1 0 6 10 0 0).files := by
    with_unfolding_all decide
  ⟨hm, C7_tier_consistency cfg1 root1 0 6 10 0 0 fi_w hm⟩

/-! Claim C5: progress reporting. -/

/-- Every scoring-loop percentage lies in [50, 90]. -/
theorem progress_ticks_mem {n x : ℕ} (hx : x ∈ progress_ticks n) :
    50 ≤ x ∧ x ≤ 90 := by
  unfold progress_ticks at hx
  obtain ⟨idx, _, hidx⟩ := List.mem_filterMap.mp hx
  split at hidx
  · obtain rfl := Option.some.inj hidx
    exact ⟨le_min (Nat.le_add_right 50 _) (by norm_num), min_le_right _ _⟩
  · exact absurd hidx (by simp)

/-- The scoring-loop percentages are non-decreasing. -/
theorem progress_ticks_pairwise (n : ℕ) :
    (progress_ticks n).Pairwise (· ≤ ·) := by
  unfold progress_ticks
  rw [List.pairwise_filterMap]
  refine List.Pairwise.imp ?_ (List.pairwise_lt_range n)
  intro i j hij b hb b' hb'
  simp only [Option.mem_def] at hb hb'
  split at hb
  case isFalse => exact absurd hb (by simp)
  obtain rfl := Option.some.inj hb
  split at hb'
  case isFalse => exact absurd hb' (by simp)
  obtain rfl := Option.some.inj hb'
  refine min_le_min ?_ (le_refl 90)
  exact Nat.add_le_add_left (Nat.div_le_div_right (Nat.mul_le_mul_left 40 (by omega))) 50

/-- The reported percentage sequence is non-decreasing, bounded by 100,
reaches 100 exactly once and last for a non-empty collection, and is
`[5, 20]` for an empty collection. -/
theorem progress_seq_props (n : ℕ) :
    List.Chain' (· ≤ ·) (progress_seq n) ∧
    (∀ p ∈ progress_seq n, p ≤ 100) ∧
    (n ≠ 0 → (progress_seq n).count 100 = 1 ∧ (progress_seq n).getLast? = some 100) ∧
    (n = 0 → progress_seq n = [5, 20]) := by
  by_cases hn : n = 0
  · subst hn
    refine ⟨by norm_num [progress_seq, List.chain'_cons], by decide, fun h => absurd rfl h, fun _ => rfl⟩
  · have hps : progress_seq n = [5, 20, 30, 50] ++ progress_ticks n ++ [100] := by
      unfold progress_seq
      rw [if_neg hn]
    refine ⟨?_, ?_, fun _ => ⟨?_, ?_⟩, fun h => absurd h hn⟩
    · rw [hps]
      refine List.chain'_append.mpr ⟨?_, List.chain'_singleton 100, ?_⟩
      · refine List.chain'_append.mpr ⟨by norm_num [List.chain'_cons], (progress_ticks_pairwise n).chain', ?_⟩
        intro x hx y hy
        have hx50 : x = 50 := by
          have : ([5, 20, 30, 50] : List ℕ).getLast? = some 50 := rfl
          rw [this] at hx
          exact (Option.some.inj (Option.mem_def.mp hx)).symm
        have hy50 : 50 ≤ y :=
          (progress_ticks_mem (List.mem_of_mem_head? hy)).1
        omega
      · intro x hx y hy
        have hy100 : y = 100 := by
          simp only [List.head?_cons, Option.mem_def, Option.some.injEq] at hy
          exact hy.symm
        have hx' : x ∈ [5, 20, 30, 50] ++ progress_ticks n :=
          List.mem_of_mem_getLast? hx
        have hx100 : x ≤ 100 := by
          rcases List.mem_append.mp hx' with h | h
          · fin_cases h <;> norm_num
          · have := (progress_ticks_mem h).2
            omega
        omega
    · rw [hps]
      intro p hp
      rcases List.mem_append.mp hp with hp | hp
      · rcases List.mem_append.mp hp with hp | hp
        · fin_cases hp <;> norm_num
        · have := (progress_ticks_mem hp).2
          omega
      · simp only [List.mem_singleton] at hp
        omega
    · rw [hps, List.count_append, List.count_append]
      have h2 : (progress_ticks n).count 100 = 0 := by
        refine List.count_eq_zero.mpr ?_
        intro hmem
        have := (progress_ticks_mem hmem).2
        omega
      rw [h2]
      rfl
    · rw [hps, List.getLast?_concat]

/-- Claim C5 counterexample: a scan of a valid root that collects zero
eligible files reports 5 and 20 and returns early — 100 is never reported,
where the claim requires it exactly once. -/
theorem C5_counterexample :
    ml_scan_progress cfg1 root_empty 50 6 = [5, 20] ∧
    (ml_scan_progress cfg1 root_empty 50 6).count 100 = 0 := ⟨rfl, rfl⟩

/-- Claim C5 as amended: the reported percentages are a non-decreasing
sequence of integers bounded by 100; when at least one file is collected,
100 is reported exactly once and as the final value; when zero files are
collected the sequence is `[5, 20]` and 100 is never reported. -/
theorem C5_progress_monotone (cfg : ScanConfig) (root : Option (FPath × FSTree))
    (msz md : ℕ) :
    List.Chain' (· ≤ ·) (ml_scan_progress cfg root msz md) ∧
    (∀ p ∈ ml_scan_progress cfg root msz md, p ≤ 100) ∧
    (collected_files cfg root (msz * 1024 * 1024) md ≠ [] →
      (ml_scan_progress cfg root msz md).count 100 = 1 ∧
      (ml_scan_progress cfg root msz md).getLast? = some 100) ∧
    (collected_files cfg root (msz * 1024 * 1024) md = [] →
      ml_scan_progress cfg root msz md = [5, 20]) := by
  have h := progress_seq_props (collected_files cfg root (msz * 1024 * 1024) md).length
  refine ⟨h.1, h.2.1, fun hne => h.2.2.1 ?_, fun he => h.2.2.2 ?_⟩
  · intro hlen
    exact hne (List.length_eq_zero.mp hlen)
  · rw [he]
    rfl

/-- Claim C5 witness: the sample scan collects two files and reports
`[5, 20, 30, 50, 70, 90, 100]` — non-decreasing, with 100 exactly once and
last. -/
theorem C5_witness :
    collected_files cfg1 root1 0 6 ≠ [] ∧
    List.Chain' (· ≤ ·) (ml_scan_progress cfg1 root1 0 6) ∧
    (ml_scan_progress cfg1 root1 0 6).count 100 = 1 ∧
    (ml_scan_progress cfg1 root1 0 6).getLast? = some 100 :=
  have hne : collected_files cfg1 root1 0 6 ≠ [] := by
    with_unfolding_all decide
  ⟨hne, (C5_progress_monotone cfg1 root1 0 6).1,
    ((C5_progress_monotone cfg1 root1 0 6).2.2.1 hne).1,
    ((C5_progress_monotone cfg1 root1 0 6).2.2.1 hne).2⟩

/-! Claim C6: duplicate-group conservation. -/

/-- A bucket of fewer than two members leaves the duplicate state alone. -/
theorem process_bucket_skip (sz : ℕ) (st : DupState) {bucket : List RawFile}
    (h : bucket.length < 2) : process_bucket sz st bucket = st := by
  match bucket with
  | [] => rfl
  | f₀ :: rest =>
    simp only [List.length_cons] at h
    simp [process_bucket, show rest.length = 0 by omega]

/-- A bucket of at least two members gets a fresh id, bindings for every
member, the newest record, and its reclaimable contribution. -/
theorem process_bucket_keep (sz : ℕ) (st : DupState) (f₀ : RawFile)
    {rest : List RawFile} (h : rest.length ≠ 0) :
    process_bucket sz st (f₀ :: rest) =
      ⟨st.dup_group_id + 1,
       st.dup_map ++ (f₀ :: rest).map (fun f => (f.path, st.dup_group_id + 1)),
       st.newest_in_group ++ [(st.dup_group_id + 1, (newest_of f₀ rest).path)],
       st.total_dup_reclaim + sz * rest.length⟩ := by
  simp [process_bucket, h]

/-- Dropping a small bucket from the confirmed list. -/
theorem confirmed_of_group_cons_skip {sz : ℕ} {kb : List ℕ × List RawFile}
    {bl : List (List ℕ × List RawFile)} (h : kb.2.length < 2) :
    confirmed_of_group sz (kb :: bl) = confirmed_of_group sz bl := by
  simp [confirmed_of_group, h]

/-- Keeping a large bucket in the confirmed list. -/
theorem confirmed_of_group_cons_keep {sz : ℕ} {kb : List ℕ × List RawFile}
    {bl : List (List ℕ × List RawFile)} (h : ¬ kb.2.length < 2) :
    confirmed_of_group sz (kb :: bl) = (sz, kb.2) :: confirmed_of_group sz bl := by
  simp [confirmed_of_group, h]

/-- Splitting the closed-form `dup_map` over an append of bucket lists. -/
theorem dup_map_spec_append (l₁ l₂ : List (ℕ × List RawFile)) (k : ℕ) :
    dup_map_spec (l₁ ++ l₂) k = dup_map_spec l₁ k ++ dup_map_spec l₂ (k + l₁.length) := by
  induction l₁ generalizing k with
  | nil => simp [dup_map_spec]
  | cons b rest ih =>
    have harith : k + 1 + rest.length = k + (rest.length + 1) := by omega
    simp [dup_map_spec, ih, harith]

/-- Splitting the closed-form `newest_in_group` over an append. -/
theorem newest_spec_append (l₁ l₂ : List (ℕ × List RawFile)) (k : ℕ) :
    newest_spec (l₁ ++ l₂) k = newest_spec l₁ k ++ newest_spec l₂ (k + l₁.length) := by
  induction l₁ generalizing k with
  | nil => simp [newest_spec]
  | cons b rest ih =>
    have harith : k + 1 + rest.length = k + (rest.length + 1) := by omega
    simp [newest_spec, ih, harith]

/-- Splitting the closed-form reclaimable total over an append. -/
theorem reclaim_spec_append (l₁ l₂ : List (ℕ × List RawFile)) :
    reclaim_spec (l₁ ++ l₂) = reclaim_spec l₁ + reclaim_spec l₂ := by
  simp [reclaim_spec]

/-- The bucket fold of one same-size group in closed form. -/
theorem foldl_process_bucket (sz : ℕ) (bl : List (List ℕ × List RawFile))
    (st : DupState) :
    bl.foldl (fun st' kb => process_bucket sz st' kb.2) st =
      ⟨st.dup_group_id + (confirmed_of_group sz bl).length,
       st.dup_map ++ dup_map_spec (confirmed_of_group sz bl) st.dup_group_id,
       st.newest_in_group ++ newest_spec (confirmed_of_group sz bl) st.dup_group_id,
       st.total_dup_reclaim + reclaim_spec (confirmed_of_group sz bl)⟩ := by
  induction bl generalizing st with
  | nil => simp [confirmed_of_group, dup_map_spec, newest_spec, reclaim_spec]
  | cons kb rest ih =>
    rw [List.foldl_cons]
    by_cases hkb : kb.2.length < 2
    · rw [process_bucket_skip sz st hkb, ih, confirmed_of_group_cons_skip hkb]
    · match hb : kb.2 with
      | [] => rw [hb] at hkb; simp at hkb
      | f₀ :: rtail =>
        have hlen : rtail.length ≠ 0 := by
          have h2 := hkb
          rw [hb] at h2
          simp only [List.length_cons] at h2
          omega
        rw [process_bucket_keep sz st f₀ hlen, ih,
          confirmed_of_group_cons_keep hkb, hb]
        simp only [dup_map_spec, newest_spec, reclaim_spec, bucket_newest,
          List.map_cons, List.length_cons, List.sum_cons, List.append_assoc,
          List.singleton_append, Nat.add_sub_cancel, DupState.mk.injEq]
        refine ⟨by omega, trivial, trivial, by omega⟩

/-- The size-group fold of phase 3 in closed form. -/
theorem foldl_process_size_group (gl : List (ℕ × List RawFile)) (st : DupState) :
    gl.foldl process_size_group st =
      ⟨st.dup_group_id + (gl.flatMap (fun p =>
          if p.2.length < 2 then [] else confirmed_of_group p.1 (hash_buckets p.2))).length,
       st.dup_map ++ dup_map_spec (gl.flatMap (fun p =>
          if p.2.length < 2 then [] else confirmed_of_group p.1 (hash_buckets p.2)))
          st.dup_group_id,
       st.newest_in_group ++ newest_spec (gl.flatMap (fun p =>
          if p.2.length < 2 then [] else confirmed_of_group p.1 (hash_buckets p.2)))
          st.dup_group_id,
       st.total_dup_reclaim + reclaim_spec (gl.flatMap (fun p =>
          if p.2.length < 2 then [] else confirmed_of_group p.1 (hash_buckets p.2)))⟩ := by
  induction gl generalizing st with
  | nil => simp [dup_map_spec, newest_spec, reclaim_spec]
  | cons p rest ih =>
    rw [List.foldl_cons]
    by_cases hp : p.2.length < 2
    · rw [show process_size_group st p = st by simp [process_size_group, hp], ih]
      simp [hp]
    · rw [show process_size_group st p =
          (hash_buckets p.2).foldl (fun st' kb => process_bucket p.1 st' kb.2) st by
            simp [process_size_group, hp],
        foldl_process_bucket, ih]
      simp only [List.flatMap_cons, if_neg hp, dup_map_spec_append,
        newest_spec_append, reclaim_spec_append, List.length_append,
        List.append_assoc, DupState.mk.injEq]
      refine ⟨by omega, trivial, trivial, by omega⟩

/-- Phase 3 in closed form: the group counter is the number of confirmed
buckets, the maps are their enumerations, and the reclaimable total is the
per-bucket sum. -/
theorem dup_detect_eq (files : List RawFile) :
    dup_detect files =
      ⟨(confirmed_buckets files).length,
       dup_map_spec (confirmed_buckets files) 0,
       newest_spec (confirmed_buckets files) 0,
       reclaim_spec (confirmed_buckets files)⟩ := by
  unfold dup_detect confirmed_buckets size_groups
  rw [foldl_process_size_group]
  simp

/-- Membership in the insertion-ordered key list. -/
theorem mem_group_keys {K : Type} [DecidableEq K] {ks : List K} {k : K} :
    k ∈ group_keys ks ↔ k ∈ ks := by
  have main : ∀ (ks acc : List K),
      (k ∈ ks.foldl (fun acc k => if k ∈ acc then acc else acc ++ [k]) acc ↔
        k ∈ acc ∨ k ∈ ks) := by
    intro ks
    induction ks with
    | nil => intro acc; simp
    | cons a rest ih =>
      intro acc
      rw [List.foldl_cons, ih]
      by_cases ha : a ∈ acc
      · rw [if_pos ha]
        constructor
        · rintro (h | h)
          · exact Or.inl h
          · exact Or.inr (List.mem_cons_of_mem a h)
        · rintro (h | h)
          · exact Or.inl h
          · rcases List.mem_cons.mp h with rfl | h
            · exact Or.inl ha
            · exact Or.inr h
      · rw [if_neg ha]
        simp only [List.mem_append, List.mem_singleton, List.mem_cons]
        tauto
  unfold group_keys
  rw [main]
  simp

/-- The insertion-ordered key list has no repeats. -/
theorem group_keys_nodup {K : Type} [DecidableEq K] (ks : List K) :
    (group_keys ks).Nodup := by
  have main : ∀ (ks acc : List K), acc.Nodup →
      (ks.foldl (fun acc k => if k ∈ acc then acc else acc ++ [k]) acc).Nodup := by
    intro ks
    induction ks with
    | nil => intro acc h; simpa using h
    | cons a rest ih =>
      intro acc h
      rw [List.foldl_cons]
      by_cases ha : a ∈ acc
      · rw [if_pos ha]; exact ih acc h
      · rw [if_neg ha]
        refine ih _ ?_
        simp [List.nodup_append, h, ha]
  exact main ks [] List.nodup_nil

/-- Every size group is the filter of the collected files at its key. -/
theorem mem_size_groups {files : List RawFile} {p : ℕ × List RawFile}
    (hp : p ∈ size_groups files) :
    p.2 = files.filter (fun f => f.size = p.1) := by
  unfold size_groups group_pairs at hp
  obtain ⟨k, _, rfl⟩ := List.mem_map.mp hp
  rfl

/-- Distinct size keys across the size groups. -/
theorem size_groups_keys_pairwise (files : List RawFile) :
    (size_groups files).Pairwise (fun p p' => p.1 ≠ p'.1) := by
  unfold size_groups group_pairs
  rw [List.pairwise_map]
  exact (List.Pairwise.imp (fun h => h)) (group_keys_nodup _)

/-- Membership of a group member: collected, of the right size. -/
theorem mem_of_mem_size_group {files : List RawFile} {p : ℕ × List RawFile}
    (hp : p ∈ size_groups files) {f : RawFile} (hf : f ∈ p.2) :
    f ∈ files ∧ f.size = p.1 := by
  rw [mem_size_groups hp] at hf
  rw [List.mem_filter] at hf
  exact ⟨hf.1, by simpa using hf.2⟩

/-- Membership in the hash-pair list of a group. -/
theorem mem_hash_pairs {g : List RawFile} {pr : List ℕ × RawFile} :
    pr ∈ hash_pairs g ↔ pr.2 ∈ g ∧ file_hash pr.2 = some pr.1 := by
  unfold hash_pairs
  rw [List.mem_filterMap]
  constructor
  · rintro ⟨f, hf, hmap⟩
    cases hfh : file_hash f with
    | none => rw [hfh] at hmap; simp at hmap
    | some h =>
      rw [hfh] at hmap
      simp only [Option.map_some', Option.some.injEq] at hmap
      rw [← hmap]
      exact ⟨hf, hfh⟩
  · rintro ⟨hg, hfh⟩
    refine ⟨pr.2, hg, ?_⟩
    rw [hfh]
    rfl

/-- Dropping the hashes recovers the hashable part of the group. -/
theorem hash_pairs_map_snd (g : List RawFile) :
    (hash_pairs g).map Prod.snd = g.filter (fun f => (file_hash f).isSome) := by
  induction g with
  | nil => rfl
  | cons f rest ih =>
    unfold hash_pairs at ih ⊢
    rw [List.filterMap_cons, List.filter_cons]
    cases hfh : file_hash f with
    | none => simp [hfh, ih]
    | some h => simp [hfh, ih]

/-- Each hash bucket is the filter of the group's hash pairs at its key. -/
theorem mem_hash_buckets {g : List RawFile} {kb : List ℕ × List RawFile}
    (h : kb ∈ hash_buckets g) :
    kb.2 = ((hash_pairs g).filter (fun pr => pr.1 = kb.1)).map Prod.snd := by
  unfold hash_buckets at h
  obtain ⟨k, _, rfl⟩ := List.mem_map.mp h
  rfl

/-- Distinct hash keys across the buckets of one group. -/
theorem hash_buckets_keys_pairwise (g : List RawFile) :
    (hash_buckets g).Pairwise (fun kb kb' => kb.1 ≠ kb'.1) := by
  unfold hash_buckets
  rw [List.pairwise_map]
  exact (List.Pairwise.imp (fun h => h)) (group_keys_nodup _)

/-- A file is in a hash bucket exactly when it is in the group and hashes
to the bucket's key. -/
theorem mem_bucket_iff {g : List RawFile} {kb : List ℕ × List RawFile}
    (h : kb ∈ hash_buckets g) (f : RawFile) :
    f ∈ kb.2 ↔ f ∈ g ∧ file_hash f = some kb.1 := by
  rw [mem_hash_buckets h, List.mem_map]
  constructor
  · rintro ⟨pr, hpr, rfl⟩
    rw [List.mem_filter] at hpr
    obtain ⟨hpr1, hpr2⟩ := hpr
    have hm := mem_hash_pairs.mp hpr1
    have : pr.1 = kb.1 := by simpa using hpr2
    rw [← this]
    exact hm
  · rintro ⟨hg, hfh⟩
    refine ⟨(kb.1, f), ?_, rfl⟩
    rw [List.mem_filter]
    exact ⟨mem_hash_pairs.mpr ⟨hg, hfh⟩, by simp⟩

/-- Every hash bucket is a sublist of its group. -/
theorem bucket_sublist {g : List RawFile} {kb : List ℕ × List RawFile}
    (h : kb ∈ hash_buckets g) : kb.2.Sublist g := by
  rw [mem_hash_buckets h]
  have h1 : (((hash_pairs g).filter (fun pr => pr.1 = kb.1)).map Prod.snd).Sublist
      ((hash_pairs g).map Prod.snd) :=
    (List.filter_sublist _).map _
  rw [hash_pairs_map_snd] at h1
  exact h1.trans (List.filter_sublist g)

/-- Every confirmed bucket comes from a hash bucket of at least two
members inside a size group of at least two files. -/
theorem mem_confirmed_buckets {files : List RawFile} {b : ℕ × List RawFile}
    (hb : b ∈ confirmed_buckets files) :
    ∃ p ∈ size_groups files, ∃ kb ∈ hash_buckets p.2,
      b = (p.1, kb.2) ∧ 2 ≤ kb.2.length := by
  unfold confirmed_buckets at hb
  rw [List.mem_flatMap] at hb
  obtain ⟨p, hp, hbp⟩ := hb
  by_cases h2 : p.2.length < 2
  · rw [if_pos h2] at hbp
    simp at hbp
  · rw [if_neg h2] at hbp
    unfold confirmed_of_group at hbp
    rw [List.mem_filterMap] at hbp
    obtain ⟨kb, hkb, heq⟩ := hbp
    split at heq
    · simp at heq
    · next hlen =>
      exact ⟨p, hp, kb, hkb, (Option.some.inj heq).symm, by omega⟩

/-- Members of a confirmed bucket are collected files of the bucket's
size. -/
theorem confirmed_member_facts {files : List RawFile} {b : ℕ × List RawFile}
    (hb : b ∈ confirmed_buckets files) {f : RawFile} (hf : f ∈ b.2) :
    f ∈ files ∧ f.size = b.1 := by
  obtain ⟨p, hp, kb, hkb, rfl, _⟩ := mem_confirmed_buckets hb
  have h1 := (mem_bucket_iff hkb f).mp hf
  exact mem_of_mem_size_group hp h1.1

/-- Every confirmed bucket's member list is a sublist of the collected
files. -/
theorem confirmed_sublist {files : List RawFile} {b : ℕ × List RawFile}
    (hb : b ∈ confirmed_buckets files) : b.2.Sublist files := by
  obtain ⟨p, hp, kb, hkb, rfl, _⟩ := mem_confirmed_buckets hb
  refine (bucket_sublist hkb).trans ?_
  rw [mem_size_groups hp]
  exact List.filter_sublist files

/-- A helper: a pairwise property over a flat-mapped list follows from the
property inside each piece and across pieces. -/
theorem pairwise_flatMap {α β : Type} {R : β → β → Prop} {F : α → List β}
    {l : List α} (hin : ∀ a ∈ l, (F a).Pairwise R)
    (hacross : l.Pairwise (fun a a' => ∀ b ∈ F a, ∀ b' ∈ F a', R b b')) :
    (l.flatMap F).Pairwise R := by
  induction l with
  | nil => simp
  | cons a rest ih =>
    rw [List.flatMap_cons, List.pairwise_append]
    rcases hacross with _ | ⟨hhead, hrest⟩
    refine ⟨hin a (List.mem_cons_self a rest),
      ih (fun a' ha' => hin a' (List.mem_cons_of_mem a ha')) hrest, ?_⟩
    intro x hx y hy
    rw [List.mem_flatMap] at hy
    obtain ⟨a', ha', hy⟩ := hy
    exact hhead a' ha' x hx y hy

/-- Two distinct confirmed buckets never share a member: inside one size
group the hash keys differ, across size groups the sizes differ. -/
theorem confirmed_pairwise_disjoint (files : List RawFile) :
    (confirmed_buckets files).Pairwise (fun b b' => ∀ f ∈ b.2, f ∉ b'.2) := by
  unfold confirmed_buckets
  apply pairwise_flatMap
  · intro p hp
    by_cases h2 : p.2.length < 2
    · rw [if_pos h2]; exact List.Pairwise.nil
    · rw [if_neg h2]
      unfold confirmed_of_group
      rw [List.pairwise_filterMap]
      refine List.Pairwise.imp_of_mem ?_ (hash_buckets_keys_pairwise p.2)
      intro kb kb' hkb hkb' hne b hbeq b' hbeq'
      split at hbeq
      · simp at hbeq
      · split at hbeq'
        · simp at hbeq'
        · obtain rfl := Option.some.inj (Option.mem_def.mp hbeq)
          obtain rfl := Option.some.inj (Option.mem_def.mp hbeq')
          intro f hf hf'
          have h1 := (mem_bucket_iff hkb f).mp hf
          have h2 := (mem_bucket_iff hkb' f).mp hf'
          rw [h1.2] at h2
          exact hne (Option.some.inj h2.2)
  · refine List.Pairwise.imp_of_mem ?_ (size_groups_keys_pairwise files)
    intro p p' hp hp' hne b hb b' hb'
    intro f hf hf'
    have hbm : b ∈ confirmed_buckets files := by
      unfold confirmed_buckets
      rw [List.mem_flatMap]
      exact ⟨p, hp, hb⟩
    have hbm' : b' ∈ confirmed_buckets files := by
      unfold confirmed_buckets
      rw [List.mem_flatMap]
      exact ⟨p', hp', hb'⟩
    -- the members' sizes are the group keys, which differ
    have hsz : f.size = b.1 := (confirmed_member_facts hbm hf).2
    have hsz' : f.size = b'.1 := (confirmed_member_facts hbm' hf').2
    have hb1 : b.1 = p.1 := by
      by_cases h2 : p.2.length < 2
      · rw [if_pos h2] at hb; simp at hb
      · rw [if_neg h2] at hb
        unfold confirmed_of_group at hb
        rw [List.mem_filterMap] at hb
        obtain ⟨kb, _, heq⟩ := hb
        split at heq
        · simp at heq
        · rw [← Option.some.inj heq]
    have hb1' : b'.1 = p'.1 := by
      by_cases h2 : p'.2.length < 2
      · rw [if_pos h2] at hb'; simp at hb'
      · rw [if_neg h2] at hb'
        unfold confirmed_of_group at hb'
        rw [List.mem_filterMap] at hb'
        obtain ⟨kb, _, heq⟩ := hb'
        split at heq
        · simp at heq
        · rw [← Option.some.inj heq]
    exact hne (by rw [← hb1, ← hsz, hsz', hb1'])

/-- Under distinct collected paths, a path determines the collected file. -/
theorem collected_path_inj {files : List RawFile}
    (h : (files.map (fun f => f.path)).Nodup) {f g : RawFile}
    (hf : f ∈ files) (hg : g ∈ files) (hp : f.path = g.path) : f = g :=
  List.inj_on_of_nodup_map h hf hg hp

/-- Under distinct collected paths, the concatenation of the member paths
of all confirmed buckets has no repeats. -/
theorem confirmed_flat_nodup {files : List RawFile}
    (h : (files.map (fun f => f.path)).Nodup) :
    ((confirmed_buckets files).flatMap (fun b => b.2.map (fun f => f.path))).Nodup := by
  rw [List.flatMap_def, List.nodup_flatten]
  constructor
  · intro l hl
    rw [List.mem_map] at hl
    obtain ⟨b, hb, rfl⟩ := hl
    exact List.Nodup.sublist ((confirmed_sublist hb).map _) h
  · rw [List.pairwise_map]
    refine List.Pairwise.imp_of_mem ?_ (confirmed_pairwise_disjoint files)
    intro b b' hb hb' hdis
    intro x hx hx'
    rw [List.mem_map] at hx hx'
    obtain ⟨f, hf, rfl⟩ := hx
    obtain ⟨g, hg, hfg⟩ := hx'
    have hf1 : f ∈ files := (confirmed_member_facts hb hf).1
    have hg1 : g ∈ files := (confirmed_member_facts hb' hg).1
    obtain rfl := collected_path_inj h hf1 hg1 hfg.symm
    exact hdis f hf hg

/-- The lookup behavior of the closed-form maps: a member of a confirmed
bucket gets looked up to the id of its own bucket, and that id leads to
the bucket's newest member path. -/
theorem spec_lookup :
    ∀ (cb : List (ℕ × List RawFile)) (s : ℕ) (b : ℕ × List RawFile) (f : RawFile),
    b ∈ cb → f ∈ b.2 →
    (cb.flatMap (fun b => b.2.map (fun f => f.path))).Nodup →
    ∃ gid, dict_get (dup_map_spec cb s) f.path = gid ∧ s < gid ∧
      dict_find (newest_spec cb s) gid = some (bucket_newest b.2) := by
  intro cb
  induction cb with
  | nil => intro s b f hb _ _; exact absurd hb (List.not_mem_nil b)
  | cons b₀ rest ih =>
    intro s b f hb hf hnd
    rw [List.flatMap_cons, List.nodup_append] at hnd
    obtain ⟨hnd₀, hndrest, hdisj⟩ := hnd
    rcases List.mem_cons.mp hb with rfl | hbrest
    · -- the member's bucket is the head: its binding is the first match
      refine ⟨s + 1, ?_, by omega, ?_⟩
      · unfold dict_get
        rw [show dup_map_spec (b :: rest) s =
              b.2.map (fun f => (f.path, s + 1)) ++ dup_map_spec rest (s + 1) from rfl,
          List.find?_append]
        have hsome : ∃ e ∈ b.2.map (fun f => (f.path, s + 1)),
            (fun e : FPath × ℕ => decide (e.1 = f.path)) e = true := by
          refine ⟨(f.path, s + 1), List.mem_map.mpr ⟨f, hf, rfl⟩, by simp⟩
        rw [← List.find?_isSome] at hsome
        obtain ⟨e, he⟩ := Option.isSome_iff_exists.mp hsome
        have hem := List.mem_of_find?_eq_some he
        rw [List.mem_map] at hem
        obtain ⟨g, _, rfl⟩ := hem
        rw [he]
        rfl
      · unfold dict_find
        rw [show newest_spec (b :: rest) s =
              (s + 1, bucket_newest b.2) :: newest_spec rest (s + 1) from rfl,
          List.find?_cons_of_pos _ (by simp)]
        rfl
    · -- the member's bucket is deeper: no binding in the head's segment
      have hpath : f.path ∈ rest.flatMap (fun b => b.2.map (fun f => f.path)) := by
        rw [List.mem_flatMap]
        exact ⟨b, hbrest, List.mem_map.mpr ⟨f, hf, rfl⟩⟩
      have hnohead : ∀ g ∈ b₀.2, g.path ≠ f.path := by
        intro g hg hpe
        exact hdisj (List.mem_map.mpr ⟨g, hg, rfl⟩) (hpe ▸ hpath)
      obtain ⟨gid, hget, hlt, hfind⟩ := ih (s + 1) b f hbrest hf hndrest
      refine ⟨gid, ?_, by omega, ?_⟩
      · unfold dict_get at hget ⊢
        rw [show dup_map_spec (b₀ :: rest) s =
              b₀.2.map (fun f => (f.path, s + 1)) ++ dup_map_spec rest (s + 1) from rfl,
          List.find?_append]
        have hnone : (b₀.2.map (fun f => (f.path, s + 1))).find?
            (fun e => decide (e.1 = f.path)) = none := by
          rw [List.find?_eq_none]
          intro e he
          rw [List.mem_map] at he
          obtain ⟨g, hg, rfl⟩ := he
          simpa using hnohead g hg
        rw [hnone]
        exact hget
      · unfold dict_find at hfind ⊢
        rw [show newest_spec (b₀ :: rest) s =
              (s + 1, bucket_newest b₀.2) :: newest_spec rest (s + 1) from rfl,
          List.find?_cons_of_neg _ (by simp; omega)]
        exact hfind

/-- Unfolding one step of `max(bucket, key=mtime)`. -/
theorem newest_of_cons (f₀ g : RawFile) (gs : List RawFile) :
    newest_of f₀ (g :: gs) = newest_of (if f₀.mtime < g.mtime then g else f₀) gs := rfl

/-- The newest member of a bucket is a member of the bucket. -/
theorem newest_of_mem : ∀ (rest : List RawFile) (f₀ : RawFile),
    newest_of f₀ rest ∈ f₀ :: rest := by
  intro rest
  induction rest with
  | nil => intro f₀; simp [newest_of]
  | cons g gs ih =>
    intro f₀
    rw [newest_of_cons]
    by_cases hc : f₀.mtime < g.mtime
    · rw [if_pos hc]
      exact List.mem_cons_of_mem f₀ (ih g)
    · rw [if_neg hc]
      rcases List.mem_cons.mp (ih f₀) with h | h
      · exact List.mem_cons.mpr (Or.inl h)
      · exact List.mem_cons_of_mem _ (List.mem_cons_of_mem _ h)

/-- The newest member of a bucket carries the maximal modification time. -/
theorem newest_of_max : ∀ (rest : List RawFile) (f₀ : RawFile),
    ∀ g ∈ f₀ :: rest, g.mtime ≤ (newest_of f₀ rest).mtime := by
  intro rest
  induction rest with
  | nil =>
    intro f₀ g hg
    rcases List.mem_cons.mp hg with rfl | h
    · exact le_refl _
    · exact absurd h (List.not_mem_nil g)
  | cons a gs ih =>
    intro f₀ g hg
    rw [newest_of_cons]
    have hstep₀ : f₀.mtime ≤ (if f₀.mtime < a.mtime then a else f₀).mtime := by
      split_ifs with hc
      · exact le_of_lt hc
      · exact le_refl _
    have hstepa : a.mtime ≤ (if f₀.mtime < a.mtime then a else f₀).mtime := by
      split_ifs with hc
      · exact le_refl _
      · exact le_of_not_lt hc
    have hfold : (if f₀.mtime < a.mtime then a else f₀).mtime ≤
        (newest_of (if f₀.mtime < a.mtime then a else f₀) gs).mtime :=
      ih _ _ (List.mem_cons_self _ _)
    rcases List.mem_cons.mp hg with rfl | hg'
    · exact le_trans hstep₀ hfold
    · rcases List.mem_cons.mp hg' with rfl | hg'' 
      · exact le_trans hstepa hfold
      · exact ih _ g (List.mem_cons_of_mem _ hg'')

/-- Under distinct collected paths, a member of a confirmed bucket is
flagged newest exactly when its path is the bucket's newest path. -/
theorem member_newest_iff {files : List RawFile}
    (hnd : (files.map (fun f => f.path)).Nodup) {b : ℕ × List RawFile}
    (hb : b ∈ confirmed_buckets files) {f : RawFile} (hf : f ∈ b.2) :
    file_is_newest (dup_detect files) f = true ↔ f.path = bucket_newest b.2 := by
  obtain ⟨gid, hget, hpos, hfind⟩ :=
    spec_lookup (confirmed_buckets files) 0 b f hb hf (confirmed_flat_nodup hnd)
  rw [dup_detect_eq files] at *
  unfold file_is_newest file_gid at *
  simp only at hget hfind ⊢
  rw [hget, hfind]
  simp only [decide_eq_true_eq, Option.some.injEq]
  constructor
  · rintro ⟨_, h⟩
    exact h.symm
  · intro h
    exact ⟨hpos, h.symm⟩

/-- In a list of distinct paths containing the target path, exactly one
entry matches it. -/
theorem filter_eq_path_length : ∀ (l : List RawFile),
    (l.map (fun f => f.path)).Nodup → ∀ (p₀ : FPath), (∃ f ∈ l, f.path = p₀) →
    (l.filter (fun f => decide (f.path = p₀))).length = 1 := by
  intro l
  induction l with
  | nil =>
    intro _ p₀ hmem
    simp at hmem
  | cons a rest ih =>
    intro hnd p₀ hmem
    rw [List.map_cons, List.nodup_cons] at hnd
    obtain ⟨hna, hndr⟩ := hnd
    rw [List.filter_cons]
    by_cases hap : a.path = p₀
    · rw [if_pos (by simpa using hap)]
      have hrest : rest.filter (fun f => decide (f.path = p₀)) = [] := by
        rw [List.filter_eq_nil_iff]
        intro f hf hfp
        rw [decide_eq_true_eq] at hfp
        exact hna (List.mem_map.mpr ⟨f, hf, by rw [hfp, hap]⟩)
      rw [hrest]
      rfl
    · rw [if_neg (by simpa using hap)]
      refine ih hndr p₀ ?_
      obtain ⟨f, hfm, hfp⟩ := hmem
      rcases List.mem_cons.mp hfm with rfl | hf'
      · exact absurd hfp hap
      · exact ⟨f, hf', hfp⟩

/-- The scored record copies the duplicate flag verbatim. -/
theorem score_file_is_newest (cfg : ScanConfig) (st : Stats) (dupSt : DupState)
    (f : RawFile) :
    (score_file cfg st dupSt f).is_newest_in_group = file_is_newest dupSt f := rfl

/-- The scored record copies the group id verbatim. -/
theorem score_file_dup_group (cfg : ScanConfig) (st : Stats) (dupSt : DupState)
    (f : RawFile) :
    (score_file cfg st dupSt f).duplicate_group = file_gid dupSt f := rfl

/-- Under distinct collected paths, every confirmed bucket has exactly one
member flagged as newest. -/
theorem confirmed_newest_unique {files : List RawFile}
    (hnd : (files.map (fun f => f.path)).Nodup) {b : ℕ × List RawFile}
    (hb : b ∈ confirmed_buckets files) :
    (b.2.filter (fun f => file_is_newest (dup_detect files) f)).length = 1 := by
  have hsub : (b.2.map (fun f => f.path)).Nodup :=
    List.Nodup.sublist ((confirmed_sublist hb).map _) hnd
  obtain ⟨p, hp, kb, hkb, hbeq, hlen2⟩ := mem_confirmed_buckets hb
  have hne : b.2 ≠ [] := by
    intro h
    rw [hbeq] at h
    simp only at h
    rw [h] at hlen2
    simp at hlen2
  obtain ⟨f₀, rest, hcons⟩ := List.exists_cons_of_ne_nil hne
  have hcong : b.2.filter (fun f => file_is_newest (dup_detect files) f) =
      b.2.filter (fun f => decide (f.path = bucket_newest b.2)) := by
    refine List.filter_congr ?_
    intro f hf
    rw [Bool.eq_iff_iff, decide_eq_true_eq]
    exact member_newest_iff hnd hb hf
  rw [hcong]
  refine filter_eq_path_length b.2 hsub (bucket_newest b.2) ?_
  refine ⟨newest_of f₀ rest, ?_, ?_⟩
  · rw [hcons]
    exact newest_of_mem rest f₀
  · rw [hcons, bucket_newest]

/-- Claim C6: the reclaimable duplicate space of a scan is the sum over
the confirmed groups of `size × (memberCount − 1)`, the reported group
count is the number of confirmed groups, and — when the collected paths
are distinct, as a filesystem walk guarantees — every confirmed group has
exactly one member flagged `is_newest_in_group` (the flag `score_file`
copies into the record, see `score_file_is_newest`), that member carrying
the maximal modification time of the group; all members share the group's
size. -/
theorem C6_duplicate_conservation (cfg : ScanConfig) (root : Option (FPath × FSTree))
    (msz md : ℕ) (now sd1 sd2 : ℚ)
    (hnd : ((collected_files cfg root (msz * 1024 * 1024) md).map
      (fun f => f.path)).Nodup) :
    (ml_scan cfg root msz md now sd1 sd2).duplicate_space_reclaimable =
      ((confirmed_buckets (collected_files cfg root (msz * 1024 * 1024) md)).map
        (fun b => b.1 * (b.2.length - 1))).sum ∧
    (ml_scan cfg root msz md now sd1 sd2).duplicates_found =
      (confirmed_buckets (collected_files cfg root (msz * 1024 * 1024) md)).length ∧
    ∀ b ∈ confirmed_buckets (collected_files cfg root (msz * 1024 * 1024) md),
      2 ≤ b.2.length ∧
      (∀ f ∈ b.2, f.size = b.1) ∧
      (b.2.filter (fun f =>
        file_is_newest (dup_detect (collected_files cfg root (msz * 1024 * 1024) md)) f)).length = 1 ∧
      (∀ f ∈ b.2,
        file_is_newest (dup_detect (collected_files cfg root (msz * 1024 * 1024) md)) f = true →
        ∀ g ∈ b.2, g.mtime ≤ f.mtime) := by
  refine ⟨?_, ?_, ?_⟩
  · by_cases h : collected_files cfg root (msz * 1024 * 1024) md = []
    · rw [ml_scan_eq_of_empty now sd1 sd2 h, h]
      rfl
    · rw [ml_scan_eq_of_ne now sd1 sd2 h]
      dsimp only
      rw [dup_detect_eq]
      rfl
  · by_cases h : collected_files cfg root (msz * 1024 * 1024) md = []
    · rw [ml_scan_eq_of_empty now sd1 sd2 h, h]
      rfl
    · rw [ml_scan_eq_of_ne now sd1 sd2 h]
      dsimp only
      rw [dup_detect_eq]
  · intro b hb
    refine ⟨?_, ?_, confirmed_newest_unique hnd hb, ?_⟩
    · obtain ⟨p, hp, kb, hkb, hbeq, hlen2⟩ := mem_confirmed_buckets hb
      rw [hbeq]
      exact hlen2
    · intro f hf
      exact (confirmed_member_facts hb hf).2
    · intro f hf hflag g hg
      have hfp := (member_newest_iff hnd hb hf).mp hflag
      obtain ⟨p, hp, kb, hkb, hbeq, hlen2⟩ := mem_confirmed_buckets hb
      have hne : b.2 ≠ [] := by
        intro h
        rw [hbeq] at h
        simp only at h
        rw [h] at hlen2
        simp at hlen2
      obtain ⟨f₀, rest, hcons⟩ := List.exists_cons_of_ne_nil hne
      have hnewmem : newest_of f₀ rest ∈ b.2 := by
        rw [hcons]
        exact newest_of_mem rest f₀
      have hfeq : f = newest_of f₀ rest := by
        refine collected_path_inj hnd (confirmed_member_facts hb hf).1
          (confirmed_member_facts hb hnewmem).1 ?_
        rw [hfp, hcons, bucket_newest]
      rw [hfeq]
      have := newest_of_max rest f₀ g (by rw [← hcons]; exact hg)
      exact this

/-- Claim C6 witness: in the sample scan the single confirmed group has
two 100-byte members, contributes `100 × (2 − 1)` bytes, and exactly one
member is flagged newest. -/
theorem C6_witness :
    ((collected_files cfg1 root1 0 6).map (fun f => f.path)).Nodup ∧
    bucket_w ∈ confirmed_buckets (collected_files cfg1 root1 0 6) ∧
    (ml_scan cfg1 root1 0 6 10 0 0).duplicate_space_reclaimable =
      ((confirmed_buckets (collected_files cfg1 root1 0 6)).map
        (fun b => b.1 * (b.2.length - 1))).sum ∧
    2 ≤ bucket_w.2.length ∧
    (bucket_w.2.filter (fun f =>
      file_is_newest (dup_detect (collected_files cfg1 root1 0 6)) f)).length = 1 :=
  have hnd : ((collected_files cfg1 root1 0 6).map (fun f => f.path)).Nodup := by
    with_unfolding_all decide
  have hmem : bucket_w ∈ confirmed_buckets (collected_files cfg1 root1 0 6) := by
    with_unfolding_all decide
  ⟨hnd, hmem, (C6_duplicate_conservation cfg1 root1 0 6 10 0 0 hnd).1,
    ((C6_duplicate_conservation cfg1 root1 0 6 10 0 0 hnd).2.2 bucket_w hmem).1,
    ((C6_duplicate_conservation cfg1 root1 0 6 10 0 0 hnd).2.2 bucket_w hmem).2.2.1⟩
